import Mathlib

/-
  Verification development for EVE-Tools/order-server (src/main.go and
  src/migrations/1485263603_initital_schema.up.sql).

  The development shallowly embeds the ingestion -> storage -> merge pipeline:
  the snappy codec boundary, the byte-level JSON field extraction performed by
  the jsonparser library calls in main.go, the markets-table upsert, the
  concatRowsToJSON merge, and the three HTTP query handlers.

  Bytes are lists of natural numbers.  Database and message-bus effects are
  embedded as explicit state passing: the markets table is a list of rows, and
  fallible store operations (Begin / Exec / Query / Commit) are driven by
  oracle records of booleans saying which of them succeed on a given request.
-/

namespace OrderServer

/-- A byte string, one natural number per byte. -/
abbrev Bytes := List Nat

/-! ## Codec (snappy)

main.go compresses with snappy.Encode (line 101) and decompresses with
snappy.Decode (line 246).  The snappy library itself is not part of src/. -/

/-- Modelled from the spec (Codec, 4.1): little-endian base-128 varint encoder,
the length preamble of the snappy block format. -/
def uvarintPut : Nat → Nat → Bytes
  | 0, _ => []
  | f + 1, n => if n < 128 then [n] else (n % 128 + 128) :: uvarintPut f (n / 128)

/-- Modelled from the spec (Codec, 4.1): varint decoder, returning the decoded
number and the remaining bytes, or none on truncated input. -/
def uvarintGet : Nat → Bytes → Option (Nat × Bytes)
  | 0, _ => none
  | _ + 1, [] => none
  | f + 1, b :: rest =>
    if b < 128 then some (b, rest)
    else
      match uvarintGet f rest with
      | none => none
      | some (n, r) => some ((b - 128) + 128 * n, r)

/-- Modelled from the spec (Codec, 4.1): the payload is emitted as a sequence
of snappy literal chunks of at most 60 bytes, each preceded by a one-byte
literal tag (low two bits zero, length-minus-one in the upper bits). -/
def litChunks : Nat → Bytes → Bytes
  | 0, _ => []
  | _ + 1, [] => []
  | f + 1, x => ((min 60 x.length - 1) * 4) :: x.take 60 ++ litChunks f (x.drop 60)

/-- Modelled from the spec (Codec, 4.1): decoder for a sequence of snappy
literal chunks; fails (DecodeError) on any other tag or on truncation. -/
def litRead : Nat → Bytes → Option Bytes
  | 0, _ => none
  | _ + 1, [] => some []
  | f + 1, tag :: rest =>
    if tag % 4 = 0 ∧ tag / 4 < 60 then
      let n := tag / 4 + 1
      if n ≤ rest.length then
        match litRead f (rest.drop n) with
        | none => none
        | some d => some (rest.take n ++ d)
      else none
    else none

/-- Modelled from the spec (Codec, 4.1): compress, as applied at ingestion
(main.go line 101): length preamble followed by literal chunks. -/
def compress (x : Bytes) : Bytes :=
  uvarintPut (x.length + 1) x.length ++ litChunks (x.length + 1) x

/-- Modelled from the spec (Codec, 4.1): decompress, as applied at read time
(main.go line 246); none models snappy.Decode returning an error. -/
def decompress (x : Bytes) : Option Bytes :=
  match uvarintGet (x.length + 1) x with
  | none => none
  | some (n, body) =>
    match litRead (body.length + 1) body with
    | none => none
    | some d => if d.length = n then some d else none

/-! ## JSON values and their canonical rendering

Payloads handled by the pipeline are raw byte strings.  To quantify over
well-formed JSON payloads, we use an abstract syntax of JSON values together
with a canonical whitespace-free renderer; number literals are kept as their
raw digit strings so that non-integer numbers such as 5.5 are representable. -/

mutual
inductive Json where
  | null : Json
  | bool (b : Bool) : Json
  | num (s : Bytes) : Json
  | str (s : Bytes) : Json
  | arr (xs : JList) : Json
  | obj (xs : JObj) : Json
deriving DecidableEq

inductive JList where
  | nil : JList
  | cons (hd : Json) (tl : JList) : JList
deriving DecidableEq

inductive JObj where
  | nil : JObj
  | cons (k : Bytes) (v : Json) (tl : JObj) : JObj
deriving DecidableEq
end

/-- JSON string escaping: quote (34) and backslash (92) are escaped with a
backslash; all other bytes are emitted verbatim. -/
def escBytes : Bytes → Bytes
  | [] => []
  | c :: tl => (if c = 34 ∨ c = 92 then [92, c] else [c]) ++ escBytes tl

/-- Bytes allowed inside a JSON number literal (digits, sign, dot, exponent). -/
def numByte (c : Nat) : Bool :=
  (decide (48 ≤ c) && decide (c ≤ 57)) || c == 45 || c == 43 || c == 46 || c == 101 || c == 69

mutual
/-- Well-formedness: number literals are nonempty strings of number bytes. -/
def Json.wf : Json → Bool
  | .null => true
  | .bool _ => true
  | .num s => !s.isEmpty && s.all numByte
  | .str _ => true
  | .arr xs => JList.wfL xs
  | .obj xs => JObj.wfO xs
termination_by structural j => j

def JList.wfL : JList → Bool
  | .nil => true
  | .cons v tl => v.wf && JList.wfL tl
termination_by structural l => l

def JObj.wfO : JObj → Bool
  | .nil => true
  | .cons _ v tl => v.wf && JObj.wfO tl
termination_by structural o => o
end

mutual
/-- Canonical whitespace-free rendering of a JSON value to bytes. -/
def Json.render : Json → Bytes
  | .null => [110, 117, 108, 108]
  | .bool true => [116, 114, 117, 101]
  | .bool false => [102, 97, 108, 115, 101]
  | .num s => s
  | .str s => 34 :: escBytes s ++ [34]
  | .arr xs => 91 :: JList.renderL xs ++ [93]
  | .obj xs => 123 :: JObj.renderO xs ++ [125]
termination_by structural j => j

/-- Rendering of the comma-separated element list of an array (no brackets). -/
def JList.renderL : JList → Bytes
  | .nil => []
  | .cons v tl => v.render ++ JList.renderLT tl
termination_by structural l => l

/-- Rendering of the tail of an element list: each element preceded by a comma. -/
def JList.renderLT : JList → Bytes
  | .nil => []
  | .cons v tl => 44 :: (v.render ++ JList.renderLT tl)
termination_by structural l => l

/-- Rendering of the comma-separated entry list of an object (no braces). -/
def JObj.renderO : JObj → Bytes
  | .nil => []
  | .cons k v tl => 34 :: escBytes k ++ [34, 58] ++ v.render ++ JObj.renderOT tl
termination_by structural o => o

/-- Rendering of the tail of an entry list: each entry preceded by a comma. -/
def JObj.renderOT : JObj → Bytes
  | .nil => []
  | .cons k v tl => 44 :: (34 :: escBytes k ++ [34, 58] ++ v.render ++ JObj.renderOT tl)
termination_by structural o => o
end

/-! ## The jsonparser library calls of main.go

main.go extracts fields with jsonparser.GetInt (lines 88, 94) and
jsonparser.Get (line 251).  The library is not part of src/; it is embedded
here as the byte-level scanner it is: it locates a key in a top-level JSON
object and returns the raw byte slice of its value together with the value
type, without building a syntax tree.  Whitespace-free input (as produced by
the canonical renderer above) is the scope of this model; the spec (9) records
that the splice-based merge assumes exactly this shape. -/

mutual
/-- Scan the remainder of a JSON string literal (opening quote already
consumed): returns the raw content bytes (escapes kept) and the bytes after
the closing quote. -/
def scanStr : Bytes → Option (Bytes × Bytes)
  | [] => none
  | c :: r =>
    if c = 34 then some ([], r)
    else if c = 92 then scanStrEsc c r
    else
      match scanStr r with
      | none => none
      | some (s, r2) => some (c :: s, r2)
termination_by structural s => s

/-- Scan continuation after a backslash: keep the escape pair verbatim. -/
def scanStrEsc : Nat → Bytes → Option (Bytes × Bytes)
  | _, [] => none
  | c, d :: r2 =>
    match scanStr r2 with
    | none => none
    | some (s, r3) => some (c :: d :: s, r3)
termination_by structural a s => s
end

/-- Match a fixed byte-string tail (the tails of the literals true, false and
null), returning the remaining input on success. -/
def expectTail : Bytes → Bytes → Option Bytes
  | [], r => some r
  | _ :: _, [] => none
  | e :: es, d :: r => if d = e then expectTail es r else none

/-- Scanner modes: a full value, the inside of an array after the opening
bracket, the separator position inside an array, and likewise for objects. -/
inductive SMode where
  | val | arrRest | arrSep | objRest | objSep
deriving DecidableEq

/-- Fuel-indexed value scanner: returns the raw bytes of one JSON value and
the remaining input.  This is the value-extraction core of jsonparser. -/
def scan : Nat → SMode → Bytes → Option (Bytes × Bytes)
  | 0, _, _ => none
  | _ + 1, _, [] => none
  | f + 1, .val, c :: r =>
    if c = 34 then
      match scanStr r with
      | none => none
      | some (s, r2) => some (34 :: s ++ [34], r2)
    else if c = 91 then
      match scan f .arrRest r with
      | none => none
      | some (b, r2) => some (91 :: b, r2)
    else if c = 123 then
      match scan f .objRest r with
      | none => none
      | some (b, r2) => some (123 :: b, r2)
    else if c = 116 then
      match expectTail [114, 117, 101] r with
      | some r2 => some ([116, 114, 117, 101], r2)
      | none => none
    else if c = 102 then
      match expectTail [97, 108, 115, 101] r with
      | some r2 => some ([102, 97, 108, 115, 101], r2)
      | none => none
    else if c = 110 then
      match expectTail [117, 108, 108] r with
      | some r2 => some ([110, 117, 108, 108], r2)
      | none => none
    else if numByte c then
      some ((c :: r).takeWhile numByte, (c :: r).dropWhile numByte)
    else none
  | f + 1, .arrRest, c :: r =>
    if c = 93 then some ([93], r)
    else
      match scan f .val (c :: r) with
      | none => none
      | some (v, r2) =>
        match scan f .arrSep r2 with
        | none => none
        | some (t, r3) => some (v ++ t, r3)
  | f + 1, .arrSep, c :: r =>
    if c = 93 then some ([93], r)
    else if c = 44 then
      match scan f .arrRest r with
      | none => none
      | some (b, r2) => some (44 :: b, r2)
    else none
  | f + 1, .objRest, c :: r =>
    if c = 125 then some ([125], r)
    else if c = 34 then
      match scanStr r with
      | none => none
      | some (k, r2) =>
        match r2 with
        | 58 :: r3 =>
          match scan f .val r3 with
          | none => none
          | some (v, r4) =>
            match scan f .objSep r4 with
            | none => none
            | some (t, r5) => some (34 :: k ++ [34, 58] ++ v ++ t, r5)
        | _ => none
    else none
  | f + 1, .objSep, c :: r =>
    if c = 125 then some ([125], r)
    else if c = 44 then
      match scan f .objRest r with
      | none => none
      | some (b, r2) => some (44 :: b, r2)
    else none

/-- Value types reported by jsonparser.Get. -/
inductive JType where
  | TStr | TNum | TObj | TArr | TBool | TNull
deriving DecidableEq

/-- Classification of a scanned value slice into the pair jsonparser.Get
returns: for strings the surrounding quotes are stripped, every other type
keeps its full byte slice. -/
def classify (v : Bytes) : Bytes × JType :=
  match v with
  | [] => ([], .TNull)
  | c :: r =>
    if c = 34 then (r.dropLast, .TStr)
    else if c = 91 then (c :: r, .TArr)
    else if c = 123 then (c :: r, .TObj)
    else if c = 116 then (c :: r, .TBool)
    else if c = 102 then (c :: r, .TBool)
    else if c = 110 then (c :: r, .TNull)
    else (c :: r, .TNum)

/-- Key search loop inside a top-level object: scan entry by entry, returning
the classified value of the first entry whose key matches, and none (the
KeyPathNotFound or malformed-document error) otherwise. -/
def getLoop : Nat → Bytes → Bytes → Option (Bytes × JType)
  | 0, _, _ => none
  | _ + 1, _, [] => none
  | f + 1, key, c :: r =>
    if c = 34 then
      match scanStr r with
      | none => none
      | some (k, r2) =>
        match r2 with
        | 58 :: r3 =>
          match scan (f + 1) .val r3 with
          | none => none
          | some (v, r4) =>
            if k = key then some (classify v)
            else
              match r4 with
              | 44 :: r5 => getLoop f key r5
              | _ => none
        | _ => none
    else none

/-- jsonparser.Get data key: locate a top-level key in a JSON object given as
raw bytes; none models the error return (key absent or document malformed). -/
def jsonparserGet (data key : Bytes) : Option (Bytes × JType) :=
  match data with
  | 123 :: r => getLoop (data.length + 1) key r
  | _ => none

/-- Accumulate the decimal value of a digit string; none on a non-digit. -/
def digitsVal : Bytes → Nat → Option Nat
  | [], acc => some acc
  | c :: r, acc =>
    if 48 ≤ c ∧ c ≤ 57 then digitsVal r (acc * 10 + (c - 48)) else none

/-- jsonparser integer parsing of a number literal: optional minus sign, then
decimal digits, rejecting empty input, non-digits (hence any float literal)
and values outside the signed 64-bit range. -/
def parseIntB (s : Bytes) : Option Int :=
  match s with
  | [] => none
  | 45 :: r =>
    match r with
    | [] => none
    | _ =>
      match digitsVal r 0 with
      | none => none
      | some n => if n ≤ 2 ^ 63 then some (-(n : Int)) else none
  | _ =>
    match digitsVal s 0 with
    | none => none
    | some n => if n < 2 ^ 63 then some ((n : Int)) else none

/-- jsonparser.GetInt (main.go lines 88 and 94): Get followed by the check
that the value is a number, then integer parsing of its literal. -/
def getIntB (data key : Bytes) : Option Int :=
  match jsonparserGet data key with
  | some (v, .TNum) => parseIntB v
  | _ => none

/-- The ASCII bytes of the key regionID (main.go line 88). -/
def regionKey : Bytes := [114, 101, 103, 105, 111, 110, 73, 68]

/-- The ASCII bytes of the key typeID (main.go line 94). -/
def typeKey : Bytes := [116, 121, 112, 101, 73, 68]

/-- The ASCII bytes of the key orders (main.go line 251). -/
def ordersKey : Bytes := [111, 114, 100, 101, 114, 115]

/-! ## Store and ingestion (main.go lines 87-119, migration schema) -/

/-- One row of the markets table: regionID int8, typeID int8, market bytea
(migration 1485263603, PRIMARY KEY (regionID, typeID)). -/
structure Row where
  regionID : Int
  typeID : Int
  market : Bytes
deriving DecidableEq

/-- The INSERT ... ON CONFLICT (regionID, typeID) DO UPDATE SET market =
EXCLUDED.market of main.go line 103: replace the market payload of every row
with the given key (at most one under the primary-key invariant), or append a
new row when the key is absent. -/
def upsert (store : List Row) (r t : Int) (m : Bytes) : List Row :=
  if store.any fun row => row.regionID == r && row.typeID == t then
    store.map fun row =>
      if row.regionID == r && row.typeID == t then ⟨r, t, m⟩ else row
  else store ++ [⟨r, t, m⟩]

/-- Outcome oracle for the write transaction of handleMessage: which of
Begin, Exec and Commit succeed on this call. -/
structure WriteOracle where
  beginOk : Bool
  execOk : Bool
  commitOk : Bool
deriving DecidableEq

/-- The all-success write oracle. -/
def allWrite : WriteOracle := ⟨true, true, true⟩

/-- Errors returned by handleMessage (a non-nil return leaves the NSQ message
unacknowledged). -/
inductive HandlerErr where
  | validationRegion | validationType | storeFail
deriving DecidableEq

/-- handleMessage (main.go lines 87-119): parse regionID and typeID from the
raw body, compress the body, and upsert it inside one transaction.  The result
pairs the returned error (none on success) with the store contents after the
call; the store changes only when the transaction commits. -/
def handleMessage (o : WriteOracle) (body : Bytes) (store : List Row) :
    Option HandlerErr × List Row :=
  match getIntB body regionKey with
  | none => (some .validationRegion, store)
  | some regionID =>
    match getIntB body typeKey with
    | none => (some .validationType, store)
    | some typeID =>
      let compressedRowset := compress body
      if !o.beginOk then (some .storeFail, store)
      else if !o.execOk then (some .storeFail, store)
      else if !o.commitOk then (some .storeFail, store)
      else (none, upsert store regionID typeID compressedRowset)

/-! ## The merge (concatRowsToJSON, main.go lines 233-266) -/

/-- Reasons for which concatRowsToJSON returns a non-nil error. -/
inductive MergeErr where
  | decodeFail | getFail
deriving DecidableEq

/-- Result of concatRowsToJSON: a returned byte slice, a returned error, or a
runtime panic (the slice expression orders[1:len(orders)-1] panics when the
value slice is shorter than two bytes). -/
inductive MergeResult where
  | ok (b : Bytes) | fail (e : MergeErr) | panicked
deriving DecidableEq

/-- The Go slice expression orders[1:len(orders)-1] for len(orders) >= 2. -/
def goSlice (v : Bytes) : Bytes := (v.drop 1).dropLast

/-- The row loop of concatRowsToJSON (main.go lines 237-263), carrying the
response accumulator: decompress each market blob, extract the raw bytes of
its orders value, splice off one leading and one trailing byte, append a
comma; after the loop drop the trailing comma if anything was appended and
close the bracket. -/
def concatLoop : List Bytes → Bytes → MergeResult
  | [], response =>
    .ok ((if 1 < response.length then response.dropLast else response) ++ [93])
  | market :: tl, response =>
    match decompress market with
    | none => .fail .decodeFail
    | some decompressedMarket =>
      match jsonparserGet decompressedMarket ordersKey with
      | none => .fail .getFail
      | some (orders, _) =>
        if 2 ≤ orders.length then
          concatLoop tl (response ++ goSlice orders ++ [44])
        else .panicked

/-- concatRowsToJSON (main.go lines 233-266) over the market blobs of the
fetched rows; the accumulator starts as the single byte 91, the opening
bracket. -/
def concatRowsToJSON (markets : List Bytes) : MergeResult :=
  concatLoop markets [91]

/-! ## Query handlers (main.go lines 136-231) -/

/-- Outcome oracle for the read path of one request: whether db.Begin,
tx.Query and tx.Commit succeed. -/
structure ReadOracle where
  beginOk : Bool
  queryOk : Bool
  commitOk : Bool
deriving DecidableEq

/-- The all-success read oracle. -/
def allRead : ReadOracle := ⟨true, true, true⟩

/-- State of the request transaction when the handler returns: never begun,
begun but neither committed nor rolled back, or finished by Commit. -/
inductive TxState where
  | noTx | openTx | released
deriving DecidableEq

/-- What the handler sends: an HTTP response with status and body, or no
response because the handler panicked. -/
inductive QueryResult where
  | resp (status : Nat) (body : Bytes)
  | crash
deriving DecidableEq

/-- Shared shape of the three query handlers (main.go lines 136-231): Begin
(500 on failure), Query (500 on failure), concatRowsToJSON (404 on its error),
Commit (500 on failure), else 200 with the merged body.  The source contains
no Rollback call, so the error returns after a successful Begin leave the
transaction in state openTx. -/
def runQuery (o : ReadOracle) (markets : List Bytes) : QueryResult × TxState :=
  if !o.beginOk then (.resp 500 [], .noTx)
  else if !o.queryOk then (.resp 500 [], .openTx)
  else
    match concatRowsToJSON markets with
    | .fail _ => (.resp 404 [], .openTx)
    | .panicked => (.crash, .openTx)
    | .ok response =>
      if !o.commitOk then (.resp 500 [], .released)
      else (.resp 200 response, .released)

/-- getRegion (main.go lines 136-166): rows with the requested regionID. -/
def getRegion (o : ReadOracle) (store : List Row) (regionID : Int) :
    QueryResult × TxState :=
  runQuery o ((store.filter fun row => row.regionID == regionID).map Row.market)

/-- getType (main.go lines 168-198): rows with the requested typeID. -/
def getType (o : ReadOracle) (store : List Row) (typeID : Int) :
    QueryResult × TxState :=
  runQuery o ((store.filter fun row => row.typeID == typeID).map Row.market)

/-- getRegionType (main.go lines 200-231): rows with the requested key pair. -/
def getRegionType (o : ReadOracle) (store : List Row) (regionID typeID : Int) :
    QueryResult × TxState :=
  runQuery o
    ((store.filter fun row =>
      row.regionID == regionID && row.typeID == typeID).map Row.market)

/-! ## Specification-side helpers for the scanner lemmas -/

/-- Whether a byte string does not begin with a number byte (so a number
literal scanned right before it ends exactly there). -/
def numStopB : Bytes → Bool
  | [] => true
  | c :: _ => !numByte c

/-- First binding of a key in an object entry list, comparing the requested
key with the escaped rendering of the stored key (equal to it for keys
without quote or backslash bytes, such as the keys of main.go). -/
def lookupO : JObj → Bytes → Option Json
  | .nil, _ => none
  | .cons k v tl, key => if escBytes k = key then some v else lookupO tl key

/-- The jsonparser value type of a JSON value. -/
def typeOf : Json → JType
  | .null => .TNull
  | .bool _ => .TBool
  | .num _ => .TNum
  | .str _ => .TStr
  | .arr _ => .TArr
  | .obj _ => .TObj

/-- The byte slice jsonparser.Get returns for a value: the rendered bytes,
except that a string loses its surrounding quotes. -/
def getBytesOf : Json → Bytes
  | .str s => escBytes s
  | v => v.render

/-- Comma-joined concatenation of element lists (the shape of the merged
response body described by the spec, 4.4). -/
def joinComma : List Bytes → Bytes
  | [] => []
  | b :: tl => if tl.isEmpty then b else b ++ [44] ++ joinComma tl

/-- The raw bytes the merge loop appends for a sequence of rows: each row's
rendered element list followed by one comma. -/
def mergeBody : List (JObj × JList) → Bytes
  | [] => []
  | p :: tl => JList.renderL p.2 ++ [44] ++ mergeBody tl

/-! ## Derived observations on results and the store -/

/-- Whether concatRowsToJSON returned a byte slice. -/
def mergeOk : MergeResult → Bool
  | .ok _ => true
  | _ => false

/-- Whether concatRowsToJSON returned a non-nil error. -/
def mergeFails : MergeResult → Bool
  | .fail _ => true
  | _ => false

/-- The HTTP status a handler outcome carries, none when it crashed. -/
def statusOf : QueryResult × TxState → Option Nat
  | (.resp s _, _) => some s
  | (.crash, _) => none

/-- Number of rows of the store holding the given (regionID, typeID) key. -/
def keyCount (store : List Row) (r t : Int) : Nat :=
  (store.filter fun row => row.regionID == r && row.typeID == t).length

/-- The first row of the store holding the given (regionID, typeID) key. -/
def findKey (store : List Row) (r t : Int) : Option Row :=
  store.find? fun row => row.regionID == r && row.typeID == t

/-! ## Concrete inputs used by the evaluation theorems

Array and object byte strings are written out with their ASCII codes: 34 is
the double quote, 44 the comma, 58 the colon, 91 and 93 the square brackets,
123 and 125 the curly braces. -/

/-- A stored market blob whose orders array is the one-element array holding
the number 7 (byte 55). -/
def rowOrdersSeven : Bytes :=
  compress (Json.render (.obj (.cons ordersKey (.arr (.cons (.num [55]) .nil)) .nil)))

/-- A stored market blob whose orders array is empty. -/
def rowOrdersEmpty : Bytes :=
  compress (Json.render (.obj (.cons ordersKey (.arr .nil) .nil)))

/-- A stored market blob whose orders value is the number 12 (bytes 49, 50),
not a JSON array. -/
def rowOrdersNumber : Bytes :=
  compress (Json.render (.obj (.cons ordersKey (.num [49, 50]) .nil)))

/-- A stored market blob that decompresses to an object with a single key foo
(bytes 102, 111, 111) and no orders field. -/
def rowNoOrders : Bytes :=
  compress (Json.render (.obj (.cons [102, 111, 111] .null .nil)))

/-- The raw bytes of the end-to-end scenario message of the spec (8):
the object binding regionID to 10000002, typeID to 34 and orders to the
one-element array holding the object binding price to 5.5. -/
def e2eBody : Bytes :=
  Json.render (.obj (.cons regionKey (.num [49, 48, 48, 48, 48, 48, 48, 50])
    (.cons typeKey (.num [51, 52])
      (.cons ordersKey
        (.arr (.cons (.obj (.cons [112, 114, 105, 99, 101] (.num [53, 46, 53]) .nil)) .nil))
        .nil))))

/-- The expected response body of the end-to-end scenario: the array holding
the object binding price to 5.5. -/
def e2eOrders : Bytes :=
  [91, 123, 34, 112, 114, 105, 99, 101, 34, 58, 53, 46, 53, 125, 93]

/-- A message body for the upsert scenario: object binding regionID to 1,
typeID to 2 and version to 1. -/
def upsertBodyOne : Bytes :=
  Json.render (.obj (.cons regionKey (.num [49])
    (.cons typeKey (.num [50]) (.cons [118, 101, 114, 115, 105, 111, 110] (.num [49]) .nil))))

/-- A second message body for the same key: object binding regionID to 1,
typeID to 2 and version to 2. -/
def upsertBodyTwo : Bytes :=
  Json.render (.obj (.cons regionKey (.num [49])
    (.cons typeKey (.num [50]) (.cons [118, 101, 114, 115, 105, 111, 110] (.num [50]) .nil))))

/-- Two payload rows, each paired with its orders element list: the first
binds orders to the one-element array holding the number 7, the second binds
orders to the empty array. -/
def pairRows : List (JObj × JList) :=
  [(JObj.cons ordersKey (.arr (.cons (.num [55]) .nil)) .nil,
    JList.cons (.num [55]) .nil),
   (JObj.cons ordersKey (.arr .nil) .nil, JList.nil)]

/-! ## Codec correctness -/

theorem uvarint_roundtrip (f : Nat) :
    ∀ n g rest, n < f → f ≤ g →
      uvarintGet g (uvarintPut f n ++ rest) = some (n, rest) := by
  induction f with
  | zero => intro n g rest h; omega
  | succ f ih =>
    intro n g rest hn hg
    obtain ⟨g0, rfl⟩ : ∃ g0, g = g0 + 1 := ⟨g - 1, by omega⟩
    by_cases h : n < 128
    · simp [uvarintPut, h, uvarintGet]
    · have hb : ¬ (n % 128 + 128 < 128) := by omega
      have hdivlt : n / 128 < f := by
        have : n / 128 < n := Nat.div_lt_self (by omega) (by omega)
        omega
      simp only [uvarintPut, if_neg h, List.cons_append, uvarintGet, if_neg hb]
      rw [ih (n / 128) g0 rest hdivlt (by omega)]
      have h2 : n % 128 + 128 * (n / 128) = n := Nat.mod_add_div n 128
      simp only [Nat.add_sub_cancel]
      simp [h2]

theorem litChunks_length (f : Nat) :
    ∀ x : Bytes, x.length ≤ f → x.length ≤ (litChunks f x).length := by
  induction f with
  | zero => intro x h; simpa [litChunks] using h
  | succ f ih =>
    intro x h
    match x with
    | [] => simp [litChunks]
    | c :: xs =>
      have hdrop : ((c :: xs).drop 60).length ≤ f := by
        simp [List.length_drop] at *
        omega
      have := ih ((c :: xs).drop 60) hdrop
      simp only [litChunks, List.length_cons, List.length_append, List.length_take,
        List.length_drop] at *
      omega

theorem litChunks_cons (f c : Nat) (xs : Bytes) :
    litChunks (f + 1) (c :: xs) =
      ((min 60 (c :: xs).length - 1) * 4) :: (c :: xs).take 60 ++
        litChunks f ((c :: xs).drop 60) := rfl

theorem litRead_chunk (g : Nat) (c rest : Bytes) (hc1 : 1 ≤ c.length)
    (hc60 : c.length ≤ 60) :
    litRead (g + 1) (((c.length - 1) * 4) :: (c ++ rest)) =
      (litRead g rest).map fun d => c ++ d := by
  have htagdiv : (c.length - 1) * 4 / 4 = c.length - 1 :=
    Nat.mul_div_cancel _ (by omega)
  have hcond : (c.length - 1) * 4 % 4 = 0 ∧ (c.length - 1) * 4 / 4 < 60 :=
    ⟨Nat.mul_mod_left _ 4, by rw [htagdiv]; omega⟩
  have hn : (c.length - 1) * 4 / 4 + 1 = c.length := by rw [htagdiv]; omega
  simp only [litRead]
  rw [if_pos hcond, hn]
  rw [if_pos (by simp only [List.length_append]; omega)]
  rw [List.take_left, List.drop_left]
  cases litRead g rest <;> simp

theorem litRead_litChunks (f : Nat) :
    ∀ x g, x.length < f → (litChunks f x).length < g →
      litRead g (litChunks f x) = some x := by
  induction f with
  | zero => intro x g h; omega
  | succ f ih =>
    intro x g hx hg
    match x with
    | [] =>
      obtain ⟨g0, rfl⟩ : ∃ g0, g = g0 + 1 := ⟨g - 1, by
        simp [litChunks] at hg; omega⟩
      simp [litChunks, litRead]
    | c :: xs =>
      have hlen1 : 1 ≤ (c :: xs).length := by simp
      obtain ⟨g0, rfl⟩ : ∃ g0, g = g0 + 1 := ⟨g - 1, by omega⟩
      have htake : ((c :: xs).take 60).length = min 60 (c :: xs).length :=
        List.length_take 60 (c :: xs)
      rw [litChunks_cons] at hg ⊢
      rw [show min 60 (c :: xs).length = ((c :: xs).take 60).length from htake.symm]
      rw [List.cons_append]
      rw [litRead_chunk g0 ((c :: xs).take 60) (litChunks f ((c :: xs).drop 60))
        (by rw [htake]; omega) (by rw [htake]; omega)]
      have hxdrop : ((c :: xs).drop 60).length < f := by
        rw [List.length_drop]
        omega
      have hcg : (litChunks f ((c :: xs).drop 60)).length < g0 := by
        simp only [List.length_cons, List.length_append] at hg
        omega
      rw [ih ((c :: xs).drop 60) g0 hxdrop hcg]
      simp [List.take_append_drop]

/-- Codec roundtrip: decompressing the compressed form of any byte sequence
returns it unchanged. -/
theorem decompress_compress (x : Bytes) : decompress (compress x) = some x := by
  have hlen : x.length ≤ (litChunks (x.length + 1) x).length :=
    litChunks_length (x.length + 1) x (by omega)
  have h1 : uvarintGet ((compress x).length + 1)
      (uvarintPut (x.length + 1) x.length ++ litChunks (x.length + 1) x) =
      some (x.length, litChunks (x.length + 1) x) := by
    apply uvarint_roundtrip (x.length + 1) x.length _ _ (by omega)
    simp only [compress, List.length_append]
    omega
  have h2 : litRead ((litChunks (x.length + 1) x).length + 1)
      (litChunks (x.length + 1) x) = some x :=
    litRead_litChunks (x.length + 1) x _ (by omega) (by omega)
  simp only [decompress, compress] at *
  rw [h1]
  simp [h2]

/-- C3: for every byte sequence x, decompressing the compressed form returns x
exactly: decompress (compress x) = some x, where compress is the snappy
encoding applied at ingestion (main.go line 101) and decompress the snappy
decoding applied at read time (main.go line 246). -/
theorem c3_decompress_compress (x : Bytes) : decompress (compress x) = some x :=
  decompress_compress x

/-! ## Merge evaluation theorems -/

/-- C1 (code bug): merging a row whose orders array holds the single element 7
with a row whose orders array is empty yields the bytes 91, 55, 44, 93 — the
characters left-bracket, 7, comma, right-bracket — a trailing comma before the
closing bracket, which is not a well-formed JSON array literal and is not the
correct merge 91, 55, 93 of the contributed elements.  The claim that the
merge output is a well-formed array also when a contributing row's orders
array is empty is therefore false on the code. -/
theorem c1_empty_orders_row_breaks_merge :
    concatRowsToJSON [rowOrdersSeven, rowOrdersEmpty] = .ok [91, 55, 44, 93] ∧
      [91, 55, 44, 93] ≠ [91, 55, 93] := by
  exact ⟨rfl, by decide⟩

/-- C2 counterexample: querying the pair (10000002, 34) against the empty
store returns status 200 with the empty-array body (bytes 91, 93), not the
404 stated by the claim. -/
theorem c2_counterexample :
    getRegionType allRead [] 10000002 34 = (.resp 200 [91, 93], .released) ∧
      (200 : Nat) ≠ 404 := by
  exact ⟨rfl, by decide⟩

/-- C2 amended: querying a (regionID, typeID) pair for which the store holds
no row returns status 200 with the empty JSON array as body (and the
transaction committed), not a 404: an empty match set is not an error. -/
theorem c2_amended (store : List Row) (r t : Int)
    (h : ∀ row ∈ store, ¬(row.regionID == r && row.typeID == t) = true) :
    getRegionType allRead store r t = (.resp 200 [91, 93], .released) := by
  have hf : store.filter (fun row => row.regionID == r && row.typeID == t) = [] := by
    rw [List.filter_eq_nil_iff]
    exact h
  unfold getRegionType
  rw [hf]
  rfl

/-- Witness for the amended C2 at a concrete store and key pair. -/
theorem c2_amended_witness :
    (∀ row ∈ [(⟨5, 6, [0]⟩ : Row)], ¬(row.regionID == (1 : Int) && row.typeID == (2 : Int)) = true) ∧
      getRegionType allRead [⟨5, 6, [0]⟩] 1 2 = (.resp 200 [91, 93], .released) := by
  refine ⟨by decide, c2_amended [⟨5, 6, [0]⟩] 1 2 (by decide)⟩

/-- C4 (code bug): a stored row whose decompressed payload binds orders to the
number 12 — not a JSON array — does not make the merge fail: concatRowsToJSON
returns ok with the empty-array body, because main.go line 251 discards the
dataType that jsonparser.Get reports and never checks that the value is an
array; the inner byte splice of the two-character literal is empty. -/
theorem c4_non_array_orders_not_rejected :
    concatRowsToJSON [rowOrdersNumber] = .ok [91, 93] ∧
      ∀ e : MergeErr, MergeResult.ok [91, 93] ≠ .fail e := by
  refine ⟨rfl, ?_⟩
  intro e h
  exact MergeResult.noConfusion h

/-! ## Transaction state and error mapping on the query path -/

/-- Transaction bookkeeping of one query request: the transaction ends
released exactly when Begin, Query and the merge all succeed (the Commit call
finishes the transaction even when it reports an error), and no transaction
exists exactly when Begin failed; on every other path — row-query error,
merge or decode error, merge panic — the handler returns with the transaction
still open, since main.go contains no Rollback. -/
theorem runQuery_tx (o : ReadOracle) (ms : List Bytes) :
    ((runQuery o ms).2 = .released ↔
      (o.beginOk = true ∧ o.queryOk = true ∧ mergeOk (concatRowsToJSON ms) = true)) ∧
    ((runQuery o ms).2 = .noTx ↔ o.beginOk = false) := by
  cases hb : o.beginOk <;> cases hq : o.queryOk <;>
    cases hm : concatRowsToJSON ms <;> cases hc : o.commitOk <;>
      simp [runQuery, hb, hq, hm, hc, mergeOk]

/-- C6 counterexample: with a store whose single row decompresses to an
object without an orders field, getRegionType takes the merge-error return of
main.go line 219 after db.Begin succeeded: it answers 404 with the request
transaction still open — neither committed nor rolled back — so the claim
that every exit path releases the transaction is false. -/
theorem c6_counterexample :
    getRegionType allRead [⟨1, 2, rowNoOrders⟩] 1 2 = (.resp 404 [], .openTx) ∧
      TxState.openTx ≠ TxState.released := by
  exact ⟨rfl, by decide⟩

/-- C6 amended: for each of getRegion, getType and getRegionType and every
outcome, the request transaction is released (by Commit) exactly when Begin
and Query succeeded and concatRowsToJSON returned a value; it was never begun
exactly when Begin failed; on the remaining exit paths — query error, or a
merge or decode error — the handler returns with the transaction still open,
because the source has no Rollback call. -/
theorem c6_amended (o : ReadOracle) (store : List Row) (r t : Int) :
    (((getRegion o store r).2 = .released ↔
        (o.beginOk = true ∧ o.queryOk = true ∧ mergeOk (concatRowsToJSON
          ((store.filter fun row => row.regionID == r).map Row.market)) = true)) ∧
      ((getRegion o store r).2 = .noTx ↔ o.beginOk = false)) ∧
    (((getType o store t).2 = .released ↔
        (o.beginOk = true ∧ o.queryOk = true ∧ mergeOk (concatRowsToJSON
          ((store.filter fun row => row.typeID == t).map Row.market)) = true)) ∧
      ((getType o store t).2 = .noTx ↔ o.beginOk = false)) ∧
    (((getRegionType o store r t).2 = .released ↔
        (o.beginOk = true ∧ o.queryOk = true ∧ mergeOk (concatRowsToJSON
          ((store.filter fun row =>
            row.regionID == r && row.typeID == t).map Row.market)) = true)) ∧
      ((getRegionType o store r t).2 = .noTx ↔ o.beginOk = false)) :=
  ⟨runQuery_tx o _, runQuery_tx o _, runQuery_tx o _⟩

/-- Status mapping of one query request: 500 exactly on a store error (Begin,
Query, or Commit after a successful merge), 404 exactly when the store
operations preceding the merge succeeded and concatRowsToJSON returned an
error (decode failure or orders extraction failure), 200 exactly when
everything succeeded. -/
theorem runQuery_status (o : ReadOracle) (ms : List Bytes) :
    (statusOf (runQuery o ms) = some 500 ↔
      (o.beginOk = false ∨ o.queryOk = false ∨
        (mergeOk (concatRowsToJSON ms) = true ∧ o.commitOk = false))) ∧
    (statusOf (runQuery o ms) = some 404 ↔
      (o.beginOk = true ∧ o.queryOk = true ∧ mergeFails (concatRowsToJSON ms) = true)) ∧
    (statusOf (runQuery o ms) = some 200 ↔
      (o.beginOk = true ∧ o.queryOk = true ∧ mergeOk (concatRowsToJSON ms) = true ∧
        o.commitOk = true)) := by
  cases hb : o.beginOk <;> cases hq : o.queryOk <;>
    cases hm : concatRowsToJSON ms <;> cases hc : o.commitOk <;>
      simp [runQuery, hb, hq, hm, hc, mergeOk, mergeFails, statusOf]

/-- C7: on the query path a store error (transaction begin, row query, or
commit failure) and nothing else yields status 500, and a decode or merge
error from concatRowsToJSON and nothing else yields status 404; shown for
getRegion (the cited lines) and equally for getType and getRegionType, by the
exhaustive status characterisation of each outcome. -/
theorem c7_error_mapping (o : ReadOracle) (store : List Row) (r t : Int) :
    ((statusOf (getRegion o store r) = some 500 ↔
      (o.beginOk = false ∨ o.queryOk = false ∨
        (mergeOk (concatRowsToJSON
          ((store.filter fun row => row.regionID == r).map Row.market)) = true ∧
          o.commitOk = false))) ∧
    (statusOf (getRegion o store r) = some 404 ↔
      (o.beginOk = true ∧ o.queryOk = true ∧ mergeFails (concatRowsToJSON
        ((store.filter fun row => row.regionID == r).map Row.market)) = true)) ∧
    (statusOf (getRegion o store r) = some 200 ↔
      (o.beginOk = true ∧ o.queryOk = true ∧ mergeOk (concatRowsToJSON
        ((store.filter fun row => row.regionID == r).map Row.market)) = true ∧
        o.commitOk = true))) ∧
    ((statusOf (getType o store t) = some 500 ↔
      (o.beginOk = false ∨ o.queryOk = false ∨
        (mergeOk (concatRowsToJSON
          ((store.filter fun row => row.typeID == t).map Row.market)) = true ∧
          o.commitOk = false))) ∧
    (statusOf (getType o store t) = some 404 ↔
      (o.beginOk = true ∧ o.queryOk = true ∧ mergeFails (concatRowsToJSON
        ((store.filter fun row => row.typeID == t).map Row.market)) = true)) ∧
    (statusOf (getType o store t) = some 200 ↔
      (o.beginOk = true ∧ o.queryOk = true ∧ mergeOk (concatRowsToJSON
        ((store.filter fun row => row.typeID == t).map Row.market)) = true ∧
        o.commitOk = true))) ∧
    ((statusOf (getRegionType o store r t) = some 500 ↔
      (o.beginOk = false ∨ o.queryOk = false ∨
        (mergeOk (concatRowsToJSON
          ((store.filter fun row =>
            row.regionID == r && row.typeID == t).map Row.market)) = true ∧
          o.commitOk = false))) ∧
    (statusOf (getRegionType o store r t) = some 404 ↔
      (o.beginOk = true ∧ o.queryOk = true ∧ mergeFails (concatRowsToJSON
        ((store.filter fun row =>
          row.regionID == r && row.typeID == t).map Row.market)) = true)) ∧
    (statusOf (getRegionType o store r t) = some 200 ↔
      (o.beginOk = true ∧ o.queryOk = true ∧ mergeOk (concatRowsToJSON
        ((store.filter fun row =>
          row.regionID == r && row.typeID == t).map Row.market)) = true ∧
        o.commitOk = true))) :=
  ⟨runQuery_status o _, runQuery_status o _, runQuery_status o _⟩

/-! ## Ingestion theorems -/

/-- C9: a message body from which jsonparser.GetInt cannot extract an integer
regionID, or one from which it cannot extract an integer typeID, makes
handleMessage return a non-nil (validation) error and leaves the store
exactly unchanged, for every write oracle: the outcome does not depend on any
store operation, which matches the early returns of main.go lines 88-98. -/
theorem c9_validation_failure_leaves_store (o : WriteOracle) (body : Bytes)
    (store : List Row)
    (h : getIntB body regionKey = none ∨ getIntB body typeKey = none) :
    (handleMessage o body store).2 = store ∧
      (handleMessage o body store).1 ≠ none := by
  rcases h with h | h
  · simp [handleMessage, h]
  · cases hr : getIntB body regionKey <;> simp [handleMessage, h, hr]

/-- Witness for C9: the body 123, 125 (an empty JSON object) has no regionID
field, is rejected, and leaves the empty store empty. -/
theorem c9_witness :
    (getIntB [123, 125] regionKey = none ∨ getIntB [123, 125] typeKey = none) ∧
      (handleMessage allWrite [123, 125] []).2 = [] ∧
      (handleMessage allWrite [123, 125] []).1 ≠ none :=
  ⟨Or.inl rfl, c9_validation_failure_leaves_store allWrite [123, 125] [] (Or.inl rfl)⟩

/-- On successful field extraction and an all-success write transaction,
handleMessage acknowledges and the store becomes the upsert of the compressed
raw body under the extracted key (main.go lines 100-118). -/
theorem handleMessage_success (body : Bytes) (store : List Row) (r t : Int)
    (hr : getIntB body regionKey = some r) (ht : getIntB body typeKey = some t) :
    handleMessage allWrite body store = (none, upsert store r t (compress body)) := by
  simp [handleMessage, hr, ht, allWrite]

/-- Replacing every key-matching row by the fresh row preserves the number of
key-matching rows. -/
theorem upsertMap_filter_length (r t : Int) (m : Bytes) : ∀ store : List Row,
    ((store.map fun row =>
        if (row.regionID == r && row.typeID == t) = true then (⟨r, t, m⟩ : Row) else row).filter
      fun row => row.regionID == r && row.typeID == t).length =
    (store.filter fun row => row.regionID == r && row.typeID == t).length := by
  intro store
  induction store with
  | nil => rfl
  | cons row tl ih =>
    by_cases hrow : (row.regionID == r && row.typeID == t) = true
    · rw [List.map_cons, if_pos hrow, List.filter_cons_of_pos (by simp),
        @List.filter_cons_of_pos _ _ row tl hrow, List.length_cons, List.length_cons, ih]
    · rw [List.map_cons, if_neg hrow,
        @List.filter_cons_of_neg _ (fun row => row.regionID == r && row.typeID == t) row _ hrow,
        @List.filter_cons_of_neg _ (fun row => row.regionID == r && row.typeID == t) row tl hrow,
        ih]

/-- When some row matches the key, the replacement map makes the first match
the fresh row. -/
theorem upsertMap_find (r t : Int) (m : Bytes) : ∀ store : List Row,
    (store.any fun row => row.regionID == r && row.typeID == t) = true →
    ((store.map fun row =>
        if (row.regionID == r && row.typeID == t) = true then (⟨r, t, m⟩ : Row) else row).find?
      fun row => row.regionID == r && row.typeID == t) = some ⟨r, t, m⟩ := by
  intro store
  induction store with
  | nil => intro h; simp at h
  | cons row tl ih =>
    intro hany
    by_cases hrow : (row.regionID == r && row.typeID == t) = true
    · rw [List.map_cons, if_pos hrow, List.find?_cons_of_pos _ (by simp)]
    · have htl : (tl.any fun row => row.regionID == r && row.typeID == t) = true := by
        simp only [List.any_cons, hrow, Bool.false_or] at hany
        exact hany
      rw [List.map_cons, if_neg hrow, List.find?_cons_of_neg _ (by simpa using hrow)]
      exact ih htl

/-- After an upsert, the first row found for the key is the freshly written
row: the replacement row at the position of the previous match, or the
appended row when the key was absent. -/
theorem findKey_upsert (store : List Row) (r t : Int) (m : Bytes) :
    findKey (upsert store r t m) r t = some ⟨r, t, m⟩ := by
  unfold upsert findKey
  by_cases hany : (store.any fun row => row.regionID == r && row.typeID == t) = true
  · rw [if_pos hany]
    exact upsertMap_find r t m store hany
  · rw [if_neg hany]
    have hnone : (store.find? fun row => row.regionID == r && row.typeID == t) = none := by
      rw [List.find?_eq_none]
      intro row hmem hrow
      exact hany (List.any_eq_true.mpr ⟨row, hmem, hrow⟩)
    rw [List.find?_append, hnone, Option.none_or, List.find?_cons_of_pos _ (by simp)]

/-- An upsert leaves exactly one row for its key whenever the store held at
most one row for it before (the primary-key invariant of the markets table). -/
theorem keyCount_upsert (store : List Row) (r t : Int) (m : Bytes)
    (h : keyCount store r t ≤ 1) : keyCount (upsert store r t m) r t = 1 := by
  unfold keyCount upsert
  by_cases hany : (store.any fun row => row.regionID == r && row.typeID == t) = true
  · rw [if_pos hany, upsertMap_filter_length]
    have hpos : 0 < (store.filter fun row => row.regionID == r && row.typeID == t).length := by
      rw [List.any_eq_true] at hany
      obtain ⟨row, hmem, hrow⟩ := hany
      have hmemf : row ∈ store.filter fun row => row.regionID == r && row.typeID == t :=
        List.mem_filter.mpr ⟨hmem, hrow⟩
      exact List.length_pos.mpr fun hnil => by simp [hnil] at hmemf
    unfold keyCount at h
    omega
  · rw [if_neg hany]
    have hnil : (store.filter fun row => row.regionID == r && row.typeID == t) = [] := by
      rw [List.filter_eq_nil_iff]
      intro row hmem hrow
      exact hany (List.any_eq_true.mpr ⟨row, hmem, hrow⟩)
    rw [List.filter_append, hnil]
    simp

/-- C5: upserting a key twice through the ingestion handler — first with body
P1, then with body P2, both carrying the same (regionID, typeID) pair — on a
store satisfying the primary-key invariant leaves exactly one row for that
key, and that row's stored market payload decompresses to P2 (last write
wins, wholesale replacement). -/
theorem c5_upsert_last_write_wins (store : List Row) (b1 b2 : Bytes) (r t : Int)
    (h1r : getIntB b1 regionKey = some r) (h1t : getIntB b1 typeKey = some t)
    (h2r : getIntB b2 regionKey = some r) (h2t : getIntB b2 typeKey = some t)
    (hstore : keyCount store r t ≤ 1) :
    keyCount (handleMessage allWrite b2 (handleMessage allWrite b1 store).2).2 r t = 1 ∧
      ∃ row, findKey (handleMessage allWrite b2 (handleMessage allWrite b1 store).2).2 r t =
        some row ∧ decompress row.market = some b2 := by
  rw [handleMessage_success b1 store r t h1r h1t]
  rw [show (((none : Option HandlerErr), upsert store r t (compress b1))).2 =
    upsert store r t (compress b1) from rfl]
  rw [handleMessage_success b2 _ r t h2r h2t]
  rw [show (((none : Option HandlerErr), upsert (upsert store r t (compress b1)) r t
    (compress b2))).2 = upsert (upsert store r t (compress b1)) r t (compress b2) from rfl]
  have hc1 : keyCount (upsert store r t (compress b1)) r t = 1 :=
    keyCount_upsert store r t (compress b1) hstore
  refine ⟨keyCount_upsert _ r t (compress b2) (by omega), ?_⟩
  exact ⟨⟨r, t, compress b2⟩, findKey_upsert _ r t (compress b2), decompress_compress b2⟩

/-- Witness for C5 at the two concrete version-tagged bodies for the key
(1, 2) on the empty store. -/
theorem c5_witness :
    (getIntB upsertBodyOne regionKey = some 1 ∧ getIntB upsertBodyOne typeKey = some 2 ∧
      getIntB upsertBodyTwo regionKey = some 1 ∧ getIntB upsertBodyTwo typeKey = some 2 ∧
      keyCount [] 1 2 ≤ 1) ∧
    (keyCount (handleMessage allWrite upsertBodyTwo
        (handleMessage allWrite upsertBodyOne []).2).2 1 2 = 1 ∧
      ∃ row, findKey (handleMessage allWrite upsertBodyTwo
          (handleMessage allWrite upsertBodyOne []).2).2 1 2 = some row ∧
        decompress row.market = some upsertBodyTwo) :=
  ⟨⟨rfl, rfl, rfl, rfl, by decide⟩,
    c5_upsert_last_write_wins [] upsertBodyOne upsertBodyTwo 1 2 rfl rfl rfl rfl (by decide)⟩

/-- C8: starting from the empty store, ingesting the end-to-end message of
the spec through the ingestion handler succeeds, and the subsequent query for
region 10000002 and type 34 answers status 200 with body exactly the array
holding the object binding price to 5.5, with the transaction committed. -/
theorem c8_end_to_end :
    (handleMessage allWrite e2eBody []).1 = none ∧
      getRegionType allRead (handleMessage allWrite e2eBody []).2 10000002 34 =
        (.resp 200 e2eOrders, .released) := by
  exact ⟨rfl, rfl⟩

/-! ## Scanner correctness on rendered payloads -/

theorem escBytes_cons (c : Nat) (tl : Bytes) :
    escBytes (c :: tl) = (if c = 34 ∨ c = 92 then [92, c] else [c]) ++ escBytes tl := rfl

theorem scanStr_esc (s : Bytes) : ∀ rest,
    scanStr (escBytes s ++ 34 :: rest) = some (escBytes s, rest) := by
  induction s with
  | nil => intro rest; rfl
  | cons c s2 ih =>
    intro rest
    by_cases hc : c = 34 ∨ c = 92
    · rw [escBytes_cons, if_pos hc]
      simp only [List.cons_append, List.append_assoc, List.nil_append]
      simp [scanStr, scanStrEsc, ih]
    · have h34 : ¬ c = 34 := fun h => hc (Or.inl h)
      have h92 : ¬ c = 92 := fun h => hc (Or.inr h)
      rw [escBytes_cons, if_neg hc]
      simp only [List.cons_append, List.append_assoc, List.nil_append]
      simp [scanStr, h34, h92, ih]

theorem takeWhile_num (s : Bytes) (hs : s.all numByte = true) : ∀ rest,
    numStopB rest = true →
      (s ++ rest).takeWhile numByte = s ∧ (s ++ rest).dropWhile numByte = rest := by
  induction s with
  | nil =>
    intro rest hrest
    match rest with
    | [] => exact ⟨rfl, rfl⟩
    | c :: r2 =>
      have hc : numByte c = false := by
        simp only [numStopB, Bool.not_eq_true'] at hrest
        exact hrest
      constructor
      · simp [List.takeWhile, hc]
      · simp [List.dropWhile, hc]
  | cons c s2 ih =>
    intro rest hrest
    have hc : numByte c = true := by
      simp only [List.all_cons, Bool.and_eq_true] at hs
      exact hs.1
    have hs2 : s2.all numByte = true := by
      simp only [List.all_cons, Bool.and_eq_true] at hs
      exact hs.2
    obtain ⟨iht, ihd⟩ := ih hs2 rest hrest
    constructor
    · simp [List.takeWhile, hc, iht]
    · simp [List.dropWhile, hc, ihd]

/-- Every well-formed value renders to at least one byte. -/
theorem render_length_pos (v : Json) (h : v.wf = true) :
    1 ≤ (Json.render v).length := by
  match v with
  | .null => simp [Json.render]
  | .bool true => simp [Json.render]
  | .bool false => simp [Json.render]
  | .num s =>
    simp only [Json.wf, Bool.and_eq_true, Bool.not_eq_true'] at h
    match s with
    | [] => simp [List.isEmpty] at h
    | c :: s2 => simp [Json.render]
  | .str s => simp [Json.render]
  | .arr xs => simp [Json.render]
  | .obj xs => simp [Json.render]

/-- A well-formed value renders to bytes whose head is not a closing bracket,
a comma, or a closing brace. -/
theorem render_head_ne (v : Json) (h : v.wf = true) :
    ∃ c r0, Json.render v = c :: r0 ∧ c ≠ 93 ∧ c ≠ 44 ∧ c ≠ 125 := by
  match v with
  | .null => exact ⟨110, _, rfl, by omega, by omega, by omega⟩
  | .bool true => exact ⟨116, _, rfl, by omega, by omega, by omega⟩
  | .bool false => exact ⟨102, _, rfl, by omega, by omega, by omega⟩
  | .num s =>
    simp only [Json.wf, Bool.and_eq_true, Bool.not_eq_true'] at h
    match s with
    | [] => simp [List.isEmpty] at h
    | c :: s2 =>
      have hc : numByte c = true := by
        have := h.2
        simp only [List.all_cons, Bool.and_eq_true] at this
        exact this.1
      simp only [numByte, Bool.or_eq_true, Bool.and_eq_true, decide_eq_true_eq,
        beq_iff_eq] at hc
      exact ⟨c, s2, rfl, by omega, by omega, by omega⟩
  | .str s => exact ⟨34, _, rfl, by omega, by omega, by omega⟩
  | .arr xs => exact ⟨91, _, rfl, by omega, by omega, by omega⟩
  | .obj xs => exact ⟨123, _, rfl, by omega, by omega, by omega⟩

/-- The byte string following an element inside an array never starts with a
number byte (it starts with a comma or the closing bracket). -/
theorem numStop_LT (tl : JList) (rest : Bytes) :
    numStopB (JList.renderLT tl ++ 93 :: rest) = true := by
  match tl with
  | .nil => rfl
  | .cons v tl2 => rfl

/-- The byte string following a value inside an object never starts with a
number byte (it starts with a comma or the closing brace). -/
theorem numStop_OT (tl : JObj) (rest : Bytes) :
    numStopB (JObj.renderOT tl ++ 125 :: rest) = true := by
  match tl with
  | .nil => rfl
  | .cons k v tl2 => rfl

/-- Main scanner-correctness bundle: with enough fuel, the value scanner
consumes exactly the canonical rendering of any well-formed JSON value (or
element list, or entry list) and returns the remaining input unchanged. -/
theorem scan_render : ∀ f : Nat,
    (∀ v rest, Json.wf v = true → (Json.render v).length < f → numStopB rest = true →
      scan f .val (Json.render v ++ rest) = some (Json.render v, rest)) ∧
    (∀ xs rest, JList.wfL xs = true → (JList.renderL xs).length + 1 < f →
      scan f .arrRest (JList.renderL xs ++ 93 :: rest) =
        some (JList.renderL xs ++ [93], rest)) ∧
    (∀ xs rest, JList.wfL xs = true → (JList.renderLT xs).length + 1 < f →
      scan f .arrSep (JList.renderLT xs ++ 93 :: rest) =
        some (JList.renderLT xs ++ [93], rest)) ∧
    (∀ xs rest, JObj.wfO xs = true → (JObj.renderO xs).length + 1 < f →
      scan f .objRest (JObj.renderO xs ++ 125 :: rest) =
        some (JObj.renderO xs ++ [125], rest)) ∧
    (∀ xs rest, JObj.wfO xs = true → (JObj.renderOT xs).length + 1 < f →
      scan f .objSep (JObj.renderOT xs ++ 125 :: rest) =
        some (JObj.renderOT xs ++ [125], rest)) := by
  intro f
  induction f with
  | zero =>
    refine ⟨fun v rest _ h _ => absurd h (by omega),
      fun xs rest _ h => absurd h (by omega),
      fun xs rest _ h => absurd h (by omega),
      fun xs rest _ h => absurd h (by omega),
      fun xs rest _ h => absurd h (by omega)⟩
  | succ f ih =>
    obtain ⟨ihv, ihar, ihas, ihor, ihos⟩ := ih
    have hval : ∀ v rest, Json.wf v = true → (Json.render v).length < f + 1 →
        numStopB rest = true →
        scan (f + 1) .val (Json.render v ++ rest) = some (Json.render v, rest) := by
      intro v rest hwf hlen hrest
      match v with
      | .null => rfl
      | .bool true => rfl
      | .bool false => rfl
      | .num s =>
        simp only [Json.wf, Bool.and_eq_true, Bool.not_eq_true'] at hwf
        match s with
        | [] => simp [List.isEmpty] at hwf
        | c :: s2 =>
          have hall : (c :: s2).all numByte = true := hwf.2
          have hc : numByte c = true := by
            simp only [List.all_cons, Bool.and_eq_true] at hall
            exact hall.1
          have hcn := hc
          simp only [numByte, Bool.or_eq_true, Bool.and_eq_true, decide_eq_true_eq,
            beq_iff_eq] at hcn
          obtain ⟨ht, hd⟩ := takeWhile_num (c :: s2) hall rest hrest
          show scan (f + 1) .val (c :: (s2 ++ rest)) = some (c :: s2, rest)
          simp only [scan]
          rw [if_neg (by omega : ¬ c = 34), if_neg (by omega : ¬ c = 91),
            if_neg (by omega : ¬ c = 123), if_neg (by omega : ¬ c = 116),
            if_neg (by omega : ¬ c = 102), if_neg (by omega : ¬ c = 110),
            if_pos hc]
          rw [show c :: (s2 ++ rest) = (c :: s2) ++ rest from rfl, ht, hd]
      | .str s =>
        show scan (f + 1) .val (34 :: (escBytes s ++ [34] ++ rest)) = _
        rw [show escBytes s ++ [34] ++ rest = escBytes s ++ 34 :: rest from by
          simp]
        simp only [scan, reduceIte, scanStr_esc s rest]
        simp [Json.render]
      | .arr xs =>
        have hwfl : JList.wfL xs = true := hwf
        have hlen2 : (JList.renderL xs).length + 1 < f := by
          simp only [Json.render, List.length_cons, List.length_append,
            List.length_singleton] at hlen
          omega
        show scan (f + 1) .val (91 :: (JList.renderL xs ++ [93] ++ rest)) = _
        rw [show JList.renderL xs ++ [93] ++ rest = JList.renderL xs ++ 93 :: rest from by
          simp]
        simp only [scan, reduceIte, ihar xs rest hwfl hlen2]
        simp [Json.render]
      | .obj xs =>
        have hwfo : JObj.wfO xs = true := hwf
        have hlen2 : (JObj.renderO xs).length + 1 < f := by
          simp only [Json.render, List.length_cons, List.length_append,
            List.length_singleton] at hlen
          omega
        show scan (f + 1) .val (123 :: (JObj.renderO xs ++ [125] ++ rest)) = _
        rw [show JObj.renderO xs ++ [125] ++ rest = JObj.renderO xs ++ 125 :: rest from by
          simp]
        simp only [scan, reduceIte, ihor xs rest hwfo hlen2]
        simp [Json.render]
    have harr : ∀ xs rest, JList.wfL xs = true → (JList.renderL xs).length + 1 < f + 1 →
        scan (f + 1) .arrRest (JList.renderL xs ++ 93 :: rest) =
          some (JList.renderL xs ++ [93], rest) := by
      intro xs rest hwf hlen
      match xs with
      | .nil => rfl
      | .cons v tl =>
        have hwfv : v.wf = true := by
          simp only [JList.wfL, Bool.and_eq_true] at hwf
          exact hwf.1
        have hwft : JList.wfL tl = true := by
          simp only [JList.wfL, Bool.and_eq_true] at hwf
          exact hwf.2
        have hrl : JList.renderL (.cons v tl) = Json.render v ++ JList.renderLT tl := rfl
        obtain ⟨c, r0, hhead, h93, h44, h125⟩ := render_head_ne v hwfv
        have hvpos : 1 ≤ (Json.render v).length := render_length_pos v hwfv
        have hlenv : (Json.render v).length < f := by
          rw [hrl] at hlen
          simp only [List.length_append] at hlen
          omega
        have hlent : (JList.renderLT tl).length + 1 < f := by
          rw [hrl] at hlen
          simp only [List.length_append] at hlen
          omega
        have hbig : scan f .val (c :: (r0 ++ (JList.renderLT tl ++ 93 :: rest))) =
            some (Json.render v, JList.renderLT tl ++ 93 :: rest) := by
          rw [show c :: (r0 ++ (JList.renderLT tl ++ 93 :: rest)) =
            Json.render v ++ (JList.renderLT tl ++ 93 :: rest) from by
              rw [hhead]; simp]
          exact ihv v _ hwfv hlenv (numStop_LT tl rest)
        have hsep := ihas tl rest hwft hlent
        rw [hrl, hhead]
        simp only [List.cons_append, List.append_assoc]
        simp only [scan]
        rw [if_neg h93]
        simp only [hbig, hsep]
        rw [hhead]
        simp
    have hsepA : ∀ xs rest, JList.wfL xs = true → (JList.renderLT xs).length + 1 < f + 1 →
        scan (f + 1) .arrSep (JList.renderLT xs ++ 93 :: rest) =
          some (JList.renderLT xs ++ [93], rest) := by
      intro xs rest hwf hlen
      match xs with
      | .nil => rfl
      | .cons v tl =>
        have hlt : JList.renderLT (.cons v tl) = 44 :: JList.renderL (.cons v tl) := rfl
        have hlen2 : (JList.renderL (.cons v tl)).length + 1 < f := by
          rw [hlt] at hlen
          simp only [List.length_cons] at hlen
          omega
        have hrec := ihar (.cons v tl) rest hwf hlen2
        rw [hlt]
        simp only [List.cons_append]
        simp only [scan, reduceIte]
        simp only [hrec]
        simp
    have hobj : ∀ xs rest, JObj.wfO xs = true → (JObj.renderO xs).length + 1 < f + 1 →
        scan (f + 1) .objRest (JObj.renderO xs ++ 125 :: rest) =
          some (JObj.renderO xs ++ [125], rest) := by
      intro xs rest hwf hlen
      match xs with
      | .nil => rfl
      | .cons k v tl =>
        have hwfv : v.wf = true := by
          simp only [JObj.wfO, Bool.and_eq_true] at hwf
          exact hwf.1
        have hwft : JObj.wfO tl = true := by
          simp only [JObj.wfO, Bool.and_eq_true] at hwf
          exact hwf.2
        have hro : JObj.renderO (.cons k v tl) =
            34 :: escBytes k ++ [34, 58] ++ Json.render v ++ JObj.renderOT tl := rfl
        have hlenv : (Json.render v).length < f := by
          rw [hro] at hlen
          simp only [List.length_cons, List.length_append] at hlen
          omega
        have hlent : (JObj.renderOT tl).length + 1 < f := by
          rw [hro] at hlen
          simp only [List.length_cons, List.length_append] at hlen
          omega
        have hvv : scan f .val (Json.render v ++ (JObj.renderOT tl ++ 125 :: rest)) =
            some (Json.render v, JObj.renderOT tl ++ 125 :: rest) :=
          ihv v _ hwfv hlenv (numStop_OT tl rest)
        have hsep := ihos tl rest hwft hlent
        rw [hro]
        simp only [List.cons_append, List.append_assoc, List.nil_append]
        simp only [scan, reduceIte]
        simp only [List.cons_append, List.append_assoc, List.nil_append] at hvv hsep
        simp only [scanStr_esc, hvv, hsep]
        simp [List.append_assoc]
    have hsepO : ∀ xs rest, JObj.wfO xs = true → (JObj.renderOT xs).length + 1 < f + 1 →
        scan (f + 1) .objSep (JObj.renderOT xs ++ 125 :: rest) =
          some (JObj.renderOT xs ++ [125], rest) := by
      intro xs rest hwf hlen
      match xs with
      | .nil => rfl
      | .cons k v tl =>
        have hot : JObj.renderOT (.cons k v tl) = 44 :: JObj.renderO (.cons k v tl) := rfl
        have hlen2 : (JObj.renderO (.cons k v tl)).length + 1 < f := by
          rw [hot] at hlen
          simp only [List.length_cons] at hlen
          omega
        have hrec := ihor (.cons k v tl) rest hwf hlen2
        rw [hot]
        simp only [List.cons_append]
        simp only [scan, reduceIte]
        simp only [hrec]
        simp
    exact ⟨hval, harr, hsepA, hobj, hsepO⟩

/-! ## jsonparser.Get on rendered objects -/

/-- A value found in a well-formed entry list is well-formed. -/
theorem lookupO_wf : ∀ (kvs : JObj) (key : Bytes) (v : Json),
    JObj.wfO kvs = true → lookupO kvs key = some v → v.wf = true
  | .nil, key, v => by
    intro _ h
    exact Option.noConfusion h
  | .cons k w tl, key, v => by
    intro hwf h
    have hwfw : w.wf = true := by
      simp only [JObj.wfO, Bool.and_eq_true] at hwf
      exact hwf.1
    have hwft : JObj.wfO tl = true := by
      simp only [JObj.wfO, Bool.and_eq_true] at hwf
      exact hwf.2
    by_cases hkey : escBytes k = key
    · rw [show lookupO (.cons k w tl) key = some w from by simp [lookupO, hkey]] at h
      cases h
      exact hwfw
    · rw [show lookupO (.cons k w tl) key = lookupO tl key from by simp [lookupO, hkey]] at h
      exact lookupO_wf tl key v hwft h

/-- Classification of a rendered well-formed value gives exactly the byte
slice and type jsonparser.Get reports for it. -/
theorem classify_render (v : Json) (hwf : v.wf = true) :
    classify (Json.render v) = (getBytesOf v, typeOf v) := by
  match v with
  | .null => rfl
  | .bool true => rfl
  | .bool false => rfl
  | .num s =>
    simp only [Json.wf, Bool.and_eq_true, Bool.not_eq_true'] at hwf
    match s with
    | [] => simp [List.isEmpty] at hwf
    | c :: s2 =>
      have hc : numByte c = true := by
        have := hwf.2
        simp only [List.all_cons, Bool.and_eq_true] at this
        exact this.1
      have hcn := hc
      simp only [numByte, Bool.or_eq_true, Bool.and_eq_true, decide_eq_true_eq,
        beq_iff_eq] at hcn
      show classify (c :: s2) = (c :: s2, .TNum)
      simp only [classify]
      rw [if_neg (by omega : ¬ c = 34), if_neg (by omega : ¬ c = 91),
        if_neg (by omega : ¬ c = 123), if_neg (by omega : ¬ c = 116),
        if_neg (by omega : ¬ c = 102), if_neg (by omega : ¬ c = 110)]
  | .str s =>
    show classify (34 :: (escBytes s ++ [34])) = (escBytes s, .TStr)
    simp only [classify, reduceIte]
    simp [List.dropLast_concat]
  | .arr xs => rfl
  | .obj xs => rfl

/-- Key search over the rendered entries of a well-formed object finds
exactly the first binding of the key (compared against escaped keys), with
jsonparser classification applied to its rendered value. -/
theorem getLoop_render : ∀ (kvs : JObj) (key rest : Bytes) (f : Nat),
    JObj.wfO kvs = true → (JObj.renderO kvs).length + 1 ≤ f →
    getLoop f key (JObj.renderO kvs ++ 125 :: rest) =
      (match lookupO kvs key with
        | some v => some (classify (Json.render v))
        | none => none)
  | .nil, key, rest, f => by
    intro _ hf
    obtain ⟨g, rfl⟩ : ∃ g, f = g + 1 := ⟨f - 1, by omega⟩
    rfl
  | .cons k v tl, key, rest, f => by
    intro hwf hf
    have hwfv : v.wf = true := by
      simp only [JObj.wfO, Bool.and_eq_true] at hwf
      exact hwf.1
    have hwft : JObj.wfO tl = true := by
      simp only [JObj.wfO, Bool.and_eq_true] at hwf
      exact hwf.2
    have hro : JObj.renderO (.cons k v tl) =
        34 :: escBytes k ++ [34, 58] ++ Json.render v ++ JObj.renderOT tl := rfl
    obtain ⟨g, rfl⟩ : ∃ g, f = g + 1 := ⟨f - 1, by omega⟩
    have hlen : (Json.render v).length < g + 1 := by
      rw [hro] at hf
      simp only [List.length_cons, List.length_append] at hf
      omega
    have hscanv : scan (g + 1) .val (Json.render v ++ (JObj.renderOT tl ++ 125 :: rest)) =
        some (Json.render v, JObj.renderOT tl ++ 125 :: rest) :=
      (scan_render (g + 1)).1 v _ hwfv hlen (numStop_OT tl rest)
    rw [hro]
    simp only [List.cons_append, List.append_assoc, List.nil_append]
    simp only [getLoop, reduceIte]
    simp only [List.cons_append, List.append_assoc, List.nil_append] at hscanv
    simp only [scanStr_esc, hscanv]
    by_cases hkey : escBytes k = key
    · rw [if_pos hkey]
      simp [lookupO, hkey]
    · rw [if_neg hkey]
      rw [show lookupO (.cons k v tl) key = lookupO tl key from by simp [lookupO, hkey]]
      cases tl with
      | nil => rfl
      | cons k2 v2 tl2 =>
        have hot2 : JObj.renderOT (.cons k2 v2 tl2) =
            44 :: JObj.renderO (.cons k2 v2 tl2) := rfl
        have hglen : (JObj.renderO (.cons k2 v2 tl2)).length + 1 ≤ g := by
          rw [hro, hot2] at hf
          simp only [List.length_cons, List.length_append, List.length_nil] at hf
          omega
        have hrec := getLoop_render (.cons k2 v2 tl2) key rest g hwft hglen
        simp only [List.cons_append, List.append_assoc, List.nil_append] at hrec
        rw [hot2]
        simp only [List.cons_append, List.append_assoc, List.nil_append]
        exact hrec

/-- jsonparser.Get applied to the canonical rendering of a well-formed
object: the key is found exactly when lookupO finds it, and the returned
slice and type are those of the bound value. -/
theorem jsonparserGet_render (kvs : JObj) (key : Bytes) (hwf : JObj.wfO kvs = true) :
    jsonparserGet (Json.render (.obj kvs)) key =
      (match lookupO kvs key with
        | some v => some (getBytesOf v, typeOf v)
        | none => none) := by
  have hro : Json.render (.obj kvs) = 123 :: (JObj.renderO kvs ++ 125 :: []) := by
    show 123 :: JObj.renderO kvs ++ [125] = _
    simp
  rw [hro]
  show getLoop ((123 :: (JObj.renderO kvs ++ 125 :: [])).length + 1) key
      (JObj.renderO kvs ++ 125 :: []) = _
  rw [getLoop_render kvs key [] _ hwf (by
    simp only [List.length_cons, List.length_append]
    omega)]
  cases hl : lookupO kvs key with
  | none => rfl
  | some v =>
    simp only []
    rw [classify_render v (lookupO_wf kvs key v hwf hl)]

/-! ## The merge on rendered rows (C10) -/

/-- Merge-loop invariant: over rows whose blobs are the compressed renderings
of well-formed objects binding orders to an array, the loop appends, for each
row in iteration order, exactly that row's rendered element list followed by
one comma, onto the accumulator. -/
theorem concatLoop_render : ∀ rows : List (JObj × JList),
    (∀ p ∈ rows, JObj.wfO p.1 = true ∧ lookupO p.1 ordersKey = some (.arr p.2)) →
    ∀ acc : Bytes,
    concatLoop (rows.map fun p => compress (Json.render (.obj p.1))) acc =
      concatLoop [] (acc ++ mergeBody rows) := by
  intro rows
  induction rows with
  | nil => intro _ acc; simp [mergeBody]
  | cons p tl ih =>
    intro hyp acc
    obtain ⟨hwf, hlk⟩ := hyp p (by simp)
    have htl : ∀ q ∈ tl, JObj.wfO q.1 = true ∧ lookupO q.1 ordersKey = some (.arr q.2) :=
      fun q hq => hyp q (by simp [hq])
    have hdec : decompress (compress (Json.render (.obj p.1))) =
        some (Json.render (.obj p.1)) := decompress_compress _
    have hget : jsonparserGet (Json.render (.obj p.1)) ordersKey =
        some (Json.render (.arr p.2), .TArr) := by
      rw [jsonparserGet_render p.1 ordersKey hwf, hlk]
      rfl
    have hlen : 2 ≤ (Json.render (.arr p.2)).length := by
      show 2 ≤ (91 :: JList.renderL p.2 ++ [93]).length
      simp
    have hslice : goSlice (Json.render (.arr p.2)) = JList.renderL p.2 := by
      show ((91 :: JList.renderL p.2 ++ [93]).drop 1).dropLast = _
      simp [List.dropLast_concat]
    show concatLoop (compress (Json.render (.obj p.1)) ::
      tl.map fun p => compress (Json.render (.obj p.1))) acc = _
    simp only [concatLoop, hdec, hget]
    rw [if_pos hlen, hslice]
    rw [ih htl (acc ++ JList.renderL p.2 ++ [44])]
    simp only [mergeBody, List.append_assoc, List.singleton_append]
    rfl

/-- The trailing-comma loop body over a nonempty row list is the comma-joined
element lists followed by one final comma. -/
theorem mergeBody_join : ∀ (p : JObj × JList) (tl : List (JObj × JList)),
    mergeBody (p :: tl) =
      joinComma ((p :: tl).map fun q => JList.renderL q.2) ++ [44] := by
  intro p tl
  induction tl generalizing p with
  | nil => simp [mergeBody, joinComma]
  | cons q tl2 ih =>
    show JList.renderL p.2 ++ [44] ++ mergeBody (q :: tl2) = _
    rw [ih q]
    simp [joinComma, List.append_assoc]

/-- C10: merging any sequence of stored rows whose decompressed payloads are
canonical renderings of well-formed objects binding orders to a JSON array
returns, without error, the opening bracket, then — in row iteration order —
each row's rendered element sequence, comma-joined, then the closing bracket:
the elements contributed by each row appear contiguously and in their
original relative order, and row groups are never interleaved or reordered. -/
theorem c10_merge_concatenates_in_order (rows : List (JObj × JList))
    (h : ∀ p ∈ rows, JObj.wfO p.1 = true ∧ lookupO p.1 ordersKey = some (.arr p.2)) :
    concatRowsToJSON (rows.map fun p => compress (Json.render (.obj p.1))) =
      .ok (91 :: joinComma (rows.map fun p => JList.renderL p.2) ++ [93]) := by
  show concatLoop _ [91] = _
  rw [concatLoop_render rows h [91]]
  cases rows with
  | nil => rfl
  | cons p tl =>
    rw [mergeBody_join p tl]
    simp only [concatLoop]
    rw [if_pos (by simp)]
    simp only [List.singleton_append]
    rw [show (91 : Nat) :: (joinComma ((p :: tl).map fun q => JList.renderL q.2) ++ [44]) =
      (91 :: joinComma ((p :: tl).map fun q => JList.renderL q.2)) ++ [44] from rfl]
    rw [List.dropLast_concat]

/-- Witness for C10: two concrete rows — orders array holding the single
number 7, then an empty orders array — merge into the bytes the formula
prescribes (the trailing-comma bytes 91, 55, 44, 93 of the C1 code bug). -/
theorem c10_witness :
    (∀ p ∈ pairRows, JObj.wfO p.1 = true ∧ lookupO p.1 ordersKey = some (.arr p.2)) ∧
    concatRowsToJSON (pairRows.map fun p => compress (Json.render (.obj p.1))) =
      .ok (91 :: joinComma (pairRows.map fun p => JList.renderL p.2) ++ [93]) :=
  ⟨by decide, c10_merge_concatenates_in_order pairRows (by decide)⟩

end OrderServer
